import Mathlib

/-!
Verification development for the brewpyenv migration utility.

The development shallow-embeds the core logic of `src/util.mjs`:

* pure helpers: `getDaysOld`, `isCacheValid`, `identifyBrewPythonPackages`,
  `extractPythonVersions`, `generateSymlinkCommands`;
* the side-effecting steps, modelled as functions producing the list of
  command-gateway invocations and log calls they perform (`fetchBrewFormulae`,
  `installPyenvVersions`, `createSymlinks`, `reinstallBrewPackages`,
  `updateZshrc`).

JavaScript numbers are modelled as exact integers (`Int`), with
`Math.floor(a / b)` for an integer `a` and positive integer `b` rendered as
flooring integer division (`Int.fdiv`).  JavaScript arrays and strings are
modelled as Lean lists and strings.  The Node `path.posix` operations used by
the source (`path.basename`, `path.join`) are embedded faithfully, including
the path normalization that `path.join` performs.  The command gateway (the
Bun `$` template) is external to the repository; its failure behaviour is
modelled from the spec's contract: an invocation signals failure exactly when
the process exits non-zero and the command string does not embed a
`2>/dev/null` redirection.
-/

namespace BrewPyenv

/-! ## Data model -/

/-- Stable-version record of a formula (`versions.stable`). -/
structure Versions where
  stable : String
deriving DecidableEq

/-- A package-manager formula record as consumed by the core. -/
structure Formula where
  name : String
  versions : Versions
  dependencies : List String
deriving DecidableEq

/-- A classified package: projection of a formula kept by the classifier. -/
structure ClassifiedPackage where
  name : String
  version : String
  dependencies : List String
deriving DecidableEq

/-- Parsed result of `brew info <name> --json=v2`: its `formulae` array. -/
structure InfoResult where
  formulae : List Formula
deriving DecidableEq

/-- Observable events of the side-effecting steps: a command-gateway
invocation, a logger `info` call, or an `appendFile` write. -/
inductive Ev where
  | run (cmd : String)
  | log (msg : String)
  | append (path content : String)
deriving DecidableEq

/-- Commands passed to the gateway, in order, within a trace. -/
def execCmds (t : List Ev) : List String :=
  t.filterMap fun e =>
    match e with
    | .run c => some c
    | _ => none

/-- Messages passed to the logger, in order, within a trace. -/
def logMsgs (t : List Ev) : List String :=
  t.filterMap fun e =>
    match e with
    | .log m => some m
    | _ => none

/-! ## Time / cache utility (source lines 28–40) -/

/-- `getDaysOld(lastModified, currentTime)`:
`Math.floor((currentTime - lastModified) / (1000*60*60*24))`. -/
def getDaysOld (lastModified currentTime : Int) : Int :=
  Int.fdiv (currentTime - lastModified) (1000 * 60 * 60 * 24)

/-- `isCacheValid(lastModified, expiryDays)`: `getDaysOld(lastModified) <
expiryDays`.  The source lets `currentTime` default to `Date.now()`; the
ambient clock is passed explicitly here. -/
def isCacheValid (lastModified expiryDays now : Int) : Bool :=
  getDaysOld lastModified now < expiryDays

/-! ## Formula classifier (source lines 47–55) -/

/-- `identifyBrewPythonPackages(formulae)`: keep the formulae having some
dependency starting with `python@`, projected to name / stable version /
dependencies. -/
def identifyBrewPythonPackages (formulae : List Formula) : List ClassifiedPackage :=
  (formulae.filter fun formula =>
      formula.dependencies.any fun dep => dep.startsWith "python@").map
    fun formula =>
      { name := formula.name
        version := formula.versions.stable
        dependencies := formula.dependencies }

/-- Classifier as the spec words it: walk the input in order, emit the
projection of every formula whose dependency list contains at least one entry
starting with the literal prefix `python@`. -/
def classifySpec : List Formula → List ClassifiedPackage
  | [] => []
  | f :: fs =>
    if ∃ dep ∈ f.dependencies, dep.startsWith "python@" = true then
      { name := f.name
        version := f.versions.stable
        dependencies := f.dependencies } :: classifySpec fs
    else
      classifySpec fs

/-! ## Version extractor (source lines 62–67) -/

/-- One insertion into a JavaScript `Set` (insertion order preserved). -/
def jsSetAdd (seen : List String) (x : String) : List String :=
  if x ∈ seen then seen else seen ++ [x]

/-- `[...new Set(l)]`: spread of a JavaScript `Set` built from `l`. -/
def jsSetSpread (l : List String) : List String :=
  l.foldl jsSetAdd []

/-- `extractPythonVersions(packages)`: flat-map the dependency lists filtered
to `python@`-prefixed entries, then `[...new Set(...)]`. -/
def extractPythonVersions (packages : List ClassifiedPackage) : List String :=
  jsSetSpread (packages.flatMap fun pkg =>
    pkg.dependencies.filter fun dep => dep.startsWith "python@")

/-- Deduplication as the claim words it: keep each element at the position of
its first occurrence, deleting the later duplicates. -/
def dedupFirst : List String → List String
  | [] => []
  | x :: xs => x :: dedupFirst (xs.filter fun y => y ≠ x)
termination_by l => l.length
decreasing_by
  simp only [List.length_cons]
  exact Nat.lt_succ_of_le (List.length_filter_le _ _)

/-! ## Node `path.posix` embedding

`path.basename` and `path.join` from Node's posix implementation, embedded
over `List Char`.  `join` concatenates its non-empty arguments with `/` and
then normalizes the result (collapsing repeated separators and resolving `.`
and `..` segments), exactly as `path.posix.join` does. -/

/-- Split a character list on a separator (empty segments kept, as in
JavaScript's `split` with a one-character separator). -/
def splitOnChar (sep : Char) : List Char → List (List Char)
  | [] => [[]]
  | c :: cs =>
    match splitOnChar sep cs with
    | s :: ss => if c = sep then [] :: s :: ss else (c :: s) :: ss
    | [] => [[]]

/-- Re-join segments with a separator (inverse of `splitOnChar`). -/
def joinWith (sep : Char) : List (List Char) → List Char
  | [] => []
  | s :: ss => if ss = [] then s else s ++ sep :: joinWith sep ss

/-- Core of Node's `normalizeString`: process the segments left to right with
a stack (kept reversed), skipping empty and `.` segments and resolving `..`
(`allowAboveRoot` keeps leading `..` segments of relative paths). -/
def normSegs (allowAboveRoot : Bool) : List (List Char) → List (List Char) → List (List Char)
  | acc, [] => acc.reverse
  | acc, seg :: rest =>
    if seg = [] ∨ seg = ['.'] then
      normSegs allowAboveRoot acc rest
    else if seg = ['.', '.'] then
      match acc with
      | [] => normSegs allowAboveRoot (if allowAboveRoot then [['.', '.']] else []) rest
      | a :: as =>
        if a = ['.', '.'] then normSegs allowAboveRoot (['.', '.'] :: a :: as) rest
        else normSegs allowAboveRoot as rest
    else
      normSegs allowAboveRoot (seg :: acc) rest

/-- Node's `path.posix.normalize` over characters: resolve the segments
(dropping the root marker and a trailing separator first), then put the
leading and trailing separators back.  An absolute path forbids climbing
above the root. -/
def posixNormalizeChars (cs : List Char) : List Char :=
  if cs = [] then ['.']
  else if joinWith '/' (normSegs (!decide (cs.head? = some '/')) [] (splitOnChar '/' cs)) = [] then
    if cs.head? = some '/' then ['/']
    else if cs.getLast? = some '/' then ['.', '/']
    else ['.']
  else
    (if cs.head? = some '/' then ['/'] else []) ++
      joinWith '/' (normSegs (!decide (cs.head? = some '/')) [] (splitOnChar '/' cs)) ++
      (if cs.getLast? = some '/' then ['/'] else [])

/-- Node's `path.posix.join` over characters: drop empty arguments, join the
rest with `/`, normalize; an empty join yields `.`. -/
def posixJoinChars (parts : List (List Char)) : List Char :=
  if parts.filter (fun p => p ≠ []) = [] then ['.']
  else posixNormalizeChars (joinWith '/' (parts.filter fun p => p ≠ []))

/-- `path.posix.join` on strings. -/
def posixJoin (parts : List String) : String :=
  ⟨posixJoinChars (parts.map String.data)⟩

/-- `path.posix.basename`: strip trailing separators, then take the part
after the last remaining separator. -/
def posixBasename (p : String) : String :=
  ⟨(((p.data.reverse).dropWhile fun c => c = '/').takeWhile fun c => c ≠ '/').reverse⟩

/-! ## Symlink command builder (source lines 75–80) -/

/-- `generateSymlinkCommands(pythonDirs, pyenvRoot)`: one `ln -s -f` command
per directory, destination `path.join(pyenvRoot, "versions", basename+"-brew")`. -/
def generateSymlinkCommands (pythonDirs : List String) (pyenvRoot : String) : List String :=
  pythonDirs.map fun versionPath =>
    "ln -s -f " ++ versionPath ++ " " ++
      posixJoin [pyenvRoot, "versions", posixBasename versionPath ++ "-brew"]

/-- A path whose segments are all ordinary (no empty, `.` or `..` segment),
with at most a leading separator and no trailing separator.  For such a root
`path.posix.join` degenerates to plain concatenation with `/`. -/
def plainSeg (s : List Char) : Bool :=
  !s.isEmpty && s ≠ ['.'] && s ≠ ['.', '.']

/-- Decides whether a root path is in the normalization-free form described
at `plainSeg`. -/
def normalRoot (root : String) : Bool :=
  match splitOnChar '/' root.data with
  | [] :: rest => !rest.isEmpty && rest.all plainSeg
  | segs => segs.all plainSeg

/-! ## JavaScript `String.replace` with a string pattern

With a string (non-regexp) pattern, JavaScript's `replace` substitutes only
the first occurrence of the pattern. -/

/-- Replace the first occurrence of `pat` (leftmost match) by `repl`. -/
def jsReplaceChars (pat repl : List Char) : List Char → List Char
  | [] => []
  | c :: cs =>
    if pat.isPrefixOf (c :: cs) then repl ++ (c :: cs).drop pat.length
    else c :: jsReplaceChars pat repl cs

/-- `s.replace(pat, repl)` for a string pattern. -/
def jsReplace (s pat repl : String) : String :=
  ⟨jsReplaceChars pat.data repl.data s.data⟩

/-! ## Command gateway model (spec §4.5 contract)

The Bun `$` gateway is an external collaborator.  Per the spec's contract it
rejects (raises) when the underlying process exits non-zero, unless the
command string embeds a `2>/dev/null` redirection discarding stderr.  The
ambient behaviour of the host commands is abstracted as an `exits` oracle
giving, per command string, whether the process exits non-zero. -/

/-- The command string embeds a `2>/dev/null` null-sink redirection. -/
def suppressesFailure (cmd : String) : Bool :=
  decide ("2>/dev/null".data <:+: cmd.data)

/-- The gateway signals failure for `cmd`: non-zero exit and no embedded
null-sink redirection. -/
def gatewayRaises (exits : String → Bool) (cmd : String) : Bool :=
  exits cmd && !suppressesFailure cmd

/-! ## Fetch stage (source lines 86–94) -/

/-- The `for` loop of `fetchBrewFormulae`: one `brew info <name> --json=v2
2>/dev/null` invocation per name, pushing `info.formulae[0]` (which is
`undefined`, i.e. `none`, when the array is empty). -/
def fetchLoop (infoOf : String → InfoResult) : List String → List (Option Formula) × List Ev
  | [] => ([], [])
  | nm :: rest =>
    let r := fetchLoop infoOf rest
    ((infoOf nm).formulae.head? :: r.1,
      .run ("brew info " ++ nm ++ " --json=v2 2>/dev/null") :: r.2)

/-- Split of the list command's text output on newlines with empty lines
discarded (`.split("\n").filter(Boolean)`), in order. -/
def listedNames (listOut : String) : List String :=
  ((splitOnChar '\n' listOut.data).map fun cs => (⟨cs⟩ : String)).filter fun s => s ≠ ""

/-- `fetchBrewFormulae()`: run `brew list --formula`, split its text output on
newlines, drop empty lines, then loop over the names.  Parameters: the list
command's text output and the parsed result of each `info` invocation.
Returns the accumulated `formulae` array and the gateway invocations
performed. -/
def fetchBrewFormulae (listOut : String) (infoOf : String → InfoResult) :
    List (Option Formula) × List Ev :=
  let r := fetchLoop infoOf (listedNames listOut)
  (r.1, .run "brew list --formula" :: r.2)

/-! ## Install stage (source lines 111–118) -/

/-- `installPyenvVersions(pythonVersions)`: launch `pyenv install -s
<version.replace("python@", "")>` per version (concurrently; the launch order
is the input order), then log once after all settle. -/
def installPyenvVersions (pythonVersions : List String) : List Ev :=
  (pythonVersions.map fun version =>
      Ev.run ("pyenv install -s " ++ jsReplace version "python@" "")) ++
    [.log "Installed equivalent pyenv-managed Python versions."]

/-! ## Symlink stage (source lines 124–130) -/

/-- `createSymlinks(symlinkCommands)`: run each command sequentially, logging
after each, then run `pyenv rehash` once.  A gateway failure propagates as an
exception, cutting the trace short (`Except.error`). -/
def createSymlinks (exits : String → Bool) : List String → Except (List Ev) (List Ev)
  | [] =>
    if gatewayRaises exits "pyenv rehash" then .error [.run "pyenv rehash"]
    else .ok [.run "pyenv rehash"]
  | cmd :: rest =>
    if gatewayRaises exits cmd then .error [.run cmd]
    else
      match createSymlinks exits rest with
      | .ok t => .ok (.run cmd :: .log ("Executed symlink command: " ++ cmd) :: t)
      | .error t => .error (.run cmd :: .log ("Executed symlink command: " ++ cmd) :: t)

/-! ## Reinstall stage (source lines 136–141) -/

/-- `reinstallBrewPackages(brewPackages)`: sequentially run `brew reinstall
<name> 2>/dev/null` and log success per package; a gateway failure would
propagate as an exception (`Except.error`), cutting the trace short. -/
def reinstallBrewPackages (exits : String → Bool) :
    List ClassifiedPackage → Except (List Ev) (List Ev)
  | [] => .ok []
  | pkg :: rest =>
    if gatewayRaises exits ("brew reinstall " ++ pkg.name ++ " 2>/dev/null") then
      .error [.run ("brew reinstall " ++ pkg.name ++ " 2>/dev/null")]
    else
      match reinstallBrewPackages exits rest with
      | .ok t =>
        .ok (.run ("brew reinstall " ++ pkg.name ++ " 2>/dev/null") ::
          .log ("Reinstalled Brew package: " ++ pkg.name) :: t)
      | .error t =>
        .error (.run ("brew reinstall " ++ pkg.name ++ " 2>/dev/null") ::
          .log ("Reinstalled Brew package: " ++ pkg.name) :: t)

/-! ## Profile update (source lines 147–156) -/

/-- The template literal appended to `.zshrc`, byte for byte. -/
def zshrcContent : String :=
  "\nif command -v pyenv 1>/dev/null 2>&1; then\n  eval \"$(pyenv init --path)\"\n  eval \"$(pyenv init -)\"\nfi\n"

/-- `updateZshrc(zshrcPath)`: append the snippet to the given path, then log
once. -/
def updateZshrc (zshrcPath : String) : List Ev :=
  [.append zshrcPath zshrcContent,
    .log "Updated .zshrc to prioritize pyenv over Brew-managed Python."]

/-! ## Helper lemmas -/

theorem execCmds_nil : execCmds [] = [] := rfl

theorem execCmds_append (s t : List Ev) : execCmds (s ++ t) = execCmds s ++ execCmds t := by
  simp [execCmds]

theorem logMsgs_append (s t : List Ev) : logMsgs (s ++ t) = logMsgs s ++ logMsgs t := by
  simp [logMsgs]

/-! ## Claim theorems -/

/-- C6: for all integer timestamps `lastModified`, `now` and integer
`expiryDays`, `getDaysOld` is the floor of `(now - lastModified) /
86_400_000` (characterized by the two flooring inequalities), future
timestamps give negative results, `isCacheValid` is true iff `getDaysOld` is
strictly below the expiry threshold, and a cache exactly `expiryDays` old is
invalid (`isCacheValid (now - 7 days) 7 = false`). -/
theorem claim_C6 (lastModified now expiryDays : Int) :
    (isCacheValid lastModified expiryDays now = true ↔
      getDaysOld lastModified now < expiryDays) ∧
    86400000 * getDaysOld lastModified now ≤ now - lastModified ∧
    now - lastModified < 86400000 * (getDaysOld lastModified now + 1) ∧
    (now < lastModified → getDaysOld lastModified now < 0) ∧
    isCacheValid (now - 7 * 86400000) 7 now = false := by
  have hb : (0 : Int) < 86400000 := by norm_num
  have hfd : ∀ a : Int, Int.fdiv a 86400000 = a / 86400000 := fun a =>
    Int.fdiv_eq_ediv a (by norm_num)
  have hchar : ∀ a : Int, 86400000 * (a / 86400000) ≤ a ∧ a < 86400000 * (a / 86400000 + 1) := by
    intro a
    have h1 := Int.ediv_add_emod a 86400000
    have h2 := Int.emod_nonneg a (by norm_num : (86400000 : Int) ≠ 0)
    have h3 := Int.emod_lt_of_pos a hb
    omega
  have hget : ∀ l t : Int, getDaysOld l t = (t - l) / 86400000 := by
    intro l t
    show Int.fdiv (t - l) (1000 * 60 * 60 * 24) = (t - l) / 86400000
    norm_num [hfd]
  refine ⟨?_, ?_, ?_, ?_, ?_⟩
  · simp [isCacheValid]
  · rw [hget]; exact (hchar (now - lastModified)).1
  · rw [hget]; exact (hchar (now - lastModified)).2
  · intro hlt
    rw [hget]
    exact Int.ediv_neg' (by omega) hb
  · have h7 : getDaysOld (now - 7 * 86400000) now = 7 := by
      rw [hget]
      have : now - (now - 7 * 86400000) = 7 * 86400000 := by ring
      rw [this]
      decide
    unfold isCacheValid
    rw [h7]
    decide

/-- C6 witness: the characterization applied at concrete clocks, with the
future-timestamp hypothesis discharged at a concrete future timestamp. -/
theorem claim_C6_witness :
    getDaysOld 1 0 < 0 ∧
    isCacheValid (0 - 7 * 86400000) 7 0 = false ∧
    (isCacheValid 0 7 (5 * 86400000) = true ↔ getDaysOld 0 (5 * 86400000) < 7) :=
  ⟨(claim_C6 1 0 7).2.2.2.1 (by decide), (claim_C6 1 0 7).2.2.2.2,
    (claim_C6 0 (5 * 86400000) 7).1⟩

/-- C8: for every profile path, `updateZshrc` appends to that file exactly
the shell-initialization snippet (byte for byte, with its leading and
trailing newlines), and emits exactly one log message with the exact
documented text. -/
theorem claim_C8 (zshrcPath : String) :
    updateZshrc zshrcPath =
      [.append zshrcPath (String.intercalate "\n"
          ["", "if command -v pyenv 1>/dev/null 2>&1; then",
            "  eval \"$(pyenv init --path)\"", "  eval \"$(pyenv init -)\"", "fi", ""]),
        .log "Updated .zshrc to prioritize pyenv over Brew-managed Python."] ∧
    logMsgs (updateZshrc zshrcPath) =
      ["Updated .zshrc to prioritize pyenv over Brew-managed Python."] ∧
    (updateZshrc zshrcPath).length = 2 := by
  have h : String.intercalate "\n"
      ["", "if command -v pyenv 1>/dev/null 2>&1; then",
        "  eval \"$(pyenv init --path)\"", "  eval \"$(pyenv init -)\"", "fi", ""] =
      zshrcContent := by decide
  exact ⟨by rw [h]; rfl, rfl, rfl⟩

/-- C3: `identifyBrewPythonPackages` agrees, on every input, with the
classifier described by the spec: walk the formulae in order and emit the
`{name, stable version, full dependency list}` projection of exactly those
whose dependency list has an entry starting with `python@`; in particular the
empty input yields the empty output. -/
theorem claim_C3 (formulae : List Formula) :
    identifyBrewPythonPackages formulae = classifySpec formulae ∧
    identifyBrewPythonPackages [] = [] := by
  refine ⟨?_, rfl⟩
  induction formulae with
  | nil => rfl
  | cons f fs ih =>
    by_cases h : ∃ dep ∈ f.dependencies, dep.startsWith "python@" = true
    · have hb : (f.dependencies.any fun dep => dep.startsWith "python@") = true := by
        rw [List.any_eq_true]
        obtain ⟨d, hd, hstart⟩ := h
        exact ⟨d, hd, hstart⟩
      simp only [identifyBrewPythonPackages, classifySpec, List.filter_cons, hb, if_true,
        List.map_cons, if_pos h]
      exact congrArg _ ih
    · have hb : (f.dependencies.any fun dep => dep.startsWith "python@") = false := by
        rw [Bool.eq_false_iff]
        intro hc
        rw [List.any_eq_true] at hc
        obtain ⟨d, hd, hstart⟩ := hc
        exact h ⟨d, hd, hstart⟩
      simp only [identifyBrewPythonPackages, classifySpec, List.filter_cons, hb,
        Bool.false_eq_true, if_false, if_neg h]
      exact ih

theorem foldl_jsSetAdd (l : List String) : ∀ acc : List String,
    l.foldl jsSetAdd acc = acc ++ dedupFirst (l.filter fun x => x ∉ acc) := by
  induction l with
  | nil => intro acc; simp [dedupFirst]
  | cons x xs ih =>
    intro acc
    rw [List.foldl_cons]
    by_cases hx : x ∈ acc
    · have hxf : (decide (x ∉ acc)) = false := by simp [hx]
      simp only [jsSetAdd, if_pos hx, List.filter_cons, hxf, Bool.false_eq_true, if_false]
      exact ih acc
    · have hxt : (decide (x ∉ acc)) = true := by simp [hx]
      simp only [jsSetAdd, if_neg hx, List.filter_cons, hxt, if_true]
      rw [ih (acc ++ [x])]
      have hfil : (xs.filter fun y => y ∉ acc ++ [x]) =
          ((xs.filter fun y => y ∉ acc).filter fun y => y ≠ x) := by
        rw [List.filter_filter]
        refine List.filter_congr ?_
        intro a _
        simp [List.mem_append, not_or, and_comm]
      rw [hfil]
      have hded : dedupFirst (x :: (xs.filter fun y => y ∉ acc)) =
          x :: dedupFirst ((xs.filter fun y => y ∉ acc).filter fun y => y ≠ x) := by
        rw [dedupFirst]
      rw [hded]
      simp

theorem mem_dedupFirst (x : String) (l : List String) : x ∈ dedupFirst l ↔ x ∈ l := by
  induction l using dedupFirst.induct with
  | case1 => simp [dedupFirst]
  | case2 y ys ih =>
    rw [dedupFirst]
    by_cases hxy : x = y
    · simp [hxy]
    · simp only [List.mem_cons, hxy, false_or, ih, List.mem_filter]
      simp [hxy]

theorem dedupFirst_nodup (l : List String) : (dedupFirst l).Nodup := by
  induction l using dedupFirst.induct with
  | case1 => simp [dedupFirst]
  | case2 y ys ih =>
    rw [dedupFirst]
    refine List.nodup_cons.mpr ⟨?_, ih⟩
    intro hy
    rw [mem_dedupFirst] at hy
    simp at hy

/-- C4: `extractPythonVersions` equals the concatenation of all dependency
lists filtered to `python@`-prefixed entries, deduplicated keeping each
distinct entry at its first occurrence (first-occurrence order, not sorted):
it equals `dedupFirst` of the flattened filtered list, contains no duplicate,
has exactly the members of the flattened filtered list, and is empty on empty
input. -/
theorem claim_C4 (packages : List ClassifiedPackage) :
    extractPythonVersions packages =
      dedupFirst (packages.flatMap fun pkg =>
        pkg.dependencies.filter fun dep => dep.startsWith "python@") ∧
    (extractPythonVersions packages).Nodup ∧
    (∀ v, v ∈ extractPythonVersions packages ↔
      v ∈ packages.flatMap fun pkg =>
        pkg.dependencies.filter fun dep => dep.startsWith "python@") ∧
    extractPythonVersions [] = [] := by
  have heq : extractPythonVersions packages =
      dedupFirst (packages.flatMap fun pkg =>
        pkg.dependencies.filter fun dep => dep.startsWith "python@") := by
    unfold extractPythonVersions jsSetSpread
    rw [foldl_jsSetAdd]
    simp [List.filter_true]
  refine ⟨heq, ?_, ?_, rfl⟩
  · rw [heq]; exact dedupFirst_nodup _
  · intro v; rw [heq]; exact mem_dedupFirst v _

theorem fetchLoop_fst (infoOf : String → InfoResult) (names : List String) :
    (fetchLoop infoOf names).1 = names.map fun nm => (infoOf nm).formulae.head? := by
  induction names with
  | nil => rfl
  | cons nm rest ih => simp [fetchLoop, ih]

theorem fetchLoop_snd (infoOf : String → InfoResult) (names : List String) :
    (fetchLoop infoOf names).2 =
      names.map fun nm => Ev.run ("brew info " ++ nm ++ " --json=v2 2>/dev/null") := by
  induction names with
  | nil => rfl
  | cons nm rest ih => simp [fetchLoop, ih]

theorem execCmds_runs (f : String → String) (l : List String) :
    execCmds (l.map fun s => Ev.run (f s)) = l.map f := by
  induction l with
  | nil => rfl
  | cons a as ih => simp only [List.map_cons, execCmds, List.filterMap_cons] at *; rw [ih]

/-- C2: for every text output of the list command, `fetchBrewFormulae` splits
it on newlines, discards empty lines, performs one `info` invocation per
remaining name (`1 + N` gateway invocations in total, the list call first),
and returns, in input order, the first element of each info result's
`formulae` array — one entry per listed name. -/
theorem claim_C2 (listOut : String) (infoOf : String → InfoResult) :
    (fetchBrewFormulae listOut infoOf).1 =
      (listedNames listOut).map (fun nm => (infoOf nm).formulae.head?) ∧
    (fetchBrewFormulae listOut infoOf).1.length = (listedNames listOut).length ∧
    execCmds (fetchBrewFormulae listOut infoOf).2 =
      "brew list --formula" ::
        (listedNames listOut).map (fun nm => "brew info " ++ nm ++ " --json=v2 2>/dev/null") ∧
    (fetchBrewFormulae listOut infoOf).2.length = 1 + (listedNames listOut).length ∧
    listedNames "formula1\nformula2\nformula3" = ["formula1", "formula2", "formula3"] ∧
    listedNames "a\n\nb\n" = ["a", "b"] := by
  refine ⟨?_, ?_, ?_, ?_, by decide, by decide⟩
  · exact fetchLoop_fst infoOf (listedNames listOut)
  · show (fetchLoop infoOf (listedNames listOut)).1.length = _
    rw [fetchLoop_fst infoOf (listedNames listOut)]
    simp
  · show execCmds (.run "brew list --formula" :: (fetchLoop infoOf (listedNames listOut)).2) = _
    rw [fetchLoop_snd]
    simp only [execCmds, List.filterMap_cons]
    rw [show (List.filterMap _ _ = _) from execCmds_runs
      (fun nm => "brew info " ++ nm ++ " --json=v2 2>/dev/null") (listedNames listOut)]
  · show (.run "brew list --formula" :: (fetchLoop infoOf (listedNames listOut)).2).length = _
    rw [fetchLoop_snd]
    simp [Nat.add_comm]

/-- C10: when an `info` invocation parses but its `formulae` array is empty,
`fetchBrewFormulae` does not fail: the absent first element (`none`,
modelling JavaScript's `undefined`) is appended and the loop continues, so
the returned list still has one entry per listed name and contains an entry
that is not a formula record. -/
theorem claim_C10 (listOut : String) (infoOf : String → InfoResult) (nm : String)
    (h1 : nm ∈ listedNames listOut) (h2 : (infoOf nm).formulae = []) :
    none ∈ (fetchBrewFormulae listOut infoOf).1 ∧
    (fetchBrewFormulae listOut infoOf).1.length = (listedNames listOut).length := by
  constructor
  · show none ∈ (fetchLoop infoOf (listedNames listOut)).1
    rw [fetchLoop_fst]
    refine List.mem_map.mpr ⟨nm, h1, ?_⟩
    rw [h2]
    rfl
  · show (fetchLoop infoOf (listedNames listOut)).1.length = _
    rw [fetchLoop_fst]
    simp

/-- C10 witness: a three-name listing where the second name's info result has
an empty `formulae` array. -/
theorem claim_C10_witness :
    none ∈ (fetchBrewFormulae "a\nb\nc" (fun nm =>
      if nm = "b" then ⟨[]⟩ else ⟨[⟨"f", ⟨"1"⟩, ["python@3.9"]⟩]⟩)).1 ∧
    (fetchBrewFormulae "a\nb\nc" (fun nm =>
      if nm = "b" then ⟨[]⟩ else ⟨[⟨"f", ⟨"1"⟩, ["python@3.9"]⟩]⟩)).1.length =
      (listedNames "a\nb\nc").length :=
  claim_C10 "a\nb\nc" _ "b" (by decide) (by decide)

theorem suppresses_null_redirect (s : String) :
    suppressesFailure (s ++ " 2>/dev/null") = true := by
  unfold suppressesFailure
  rw [decide_eq_true_eq, String.data_append]
  have h : (" 2>/dev/null" : String).data = ' ' :: ("2>/dev/null" : String).data := rfl
  rw [h]
  exact ⟨s.data ++ [' '], [], by simp⟩

theorem gatewayRaises_suppressed (exits : String → Bool) (s : String) :
    gatewayRaises exits (s ++ " 2>/dev/null") = false := by
  simp [gatewayRaises, suppresses_null_redirect]

theorem reinstall_never_halts (exits : String → Bool) (brewPackages : List ClassifiedPackage) :
    reinstallBrewPackages exits brewPackages = .ok (brewPackages.flatMap fun pkg =>
      [.run ("brew reinstall " ++ pkg.name ++ " 2>/dev/null"),
        .log ("Reinstalled Brew package: " ++ pkg.name)]) := by
  induction brewPackages with
  | nil => rfl
  | cons pkg rest ih =>
    simp only [reinstallBrewPackages, gatewayRaises_suppressed exits ("brew reinstall " ++ pkg.name),
      Bool.false_eq_true, if_false, ih, List.flatMap_cons, List.cons_append, List.nil_append]

/-- C1: in `reinstallBrewPackages`, a non-zero exit of any reinstall command
never halts the loop: whatever the exit behaviour `exits` of the host
commands, every package gets exactly one reinstall invocation, in input
order, each followed by its success log — because every reinstall command
string embeds the `2>/dev/null` null-sink redirection, which (per the
gateway contract) suppresses failure signaling. -/
theorem claim_C1 (exits : String → Bool) (brewPackages : List ClassifiedPackage) :
    reinstallBrewPackages exits brewPackages = .ok (brewPackages.flatMap fun pkg =>
      [.run ("brew reinstall " ++ pkg.name ++ " 2>/dev/null"),
        .log ("Reinstalled Brew package: " ++ pkg.name)]) ∧
    execCmds (brewPackages.flatMap fun pkg =>
        [Ev.run ("brew reinstall " ++ pkg.name ++ " 2>/dev/null"),
          Ev.log ("Reinstalled Brew package: " ++ pkg.name)]) =
      brewPackages.map (fun pkg => "brew reinstall " ++ pkg.name ++ " 2>/dev/null") ∧
    logMsgs (brewPackages.flatMap fun pkg =>
        [Ev.run ("brew reinstall " ++ pkg.name ++ " 2>/dev/null"),
          Ev.log ("Reinstalled Brew package: " ++ pkg.name)]) =
      brewPackages.map (fun pkg => "Reinstalled Brew package: " ++ pkg.name) := by
  refine ⟨reinstall_never_halts exits brewPackages, ?_, ?_⟩
  · induction brewPackages with
    | nil => rfl
    | cons pkg rest ih =>
      simp only [List.flatMap_cons, List.cons_append, List.nil_append, List.map_cons,
        execCmds, List.filterMap_cons] at *
      rw [ih]
  · induction brewPackages with
    | nil => rfl
    | cons pkg rest ih =>
      simp only [List.flatMap_cons, List.cons_append, List.nil_append, List.map_cons,
        logMsgs, List.filterMap_cons] at *
      rw [ih]

theorem createSymlinks_ok (exits : String → Bool) (symlinkCommands : List String)
    (h1 : ∀ c ∈ symlinkCommands, exits c = false)
    (h2 : exits "pyenv rehash" = false) :
    createSymlinks exits symlinkCommands =
      .ok ((symlinkCommands.flatMap fun cmd =>
          [.run cmd, .log ("Executed symlink command: " ++ cmd)]) ++
        [.run "pyenv rehash"]) := by
  induction symlinkCommands with
  | nil =>
    simp only [createSymlinks, gatewayRaises, h2, Bool.false_and, Bool.false_eq_true, if_false,
      List.flatMap_nil, List.nil_append]
  | cons cmd rest ih =>
    have hc : gatewayRaises exits cmd = false := by
      simp [gatewayRaises, h1 cmd (List.mem_cons_self cmd rest)]
    have ihr := ih fun c hc => h1 c (List.mem_cons_of_mem cmd hc)
    simp only [createSymlinks, hc, Bool.false_eq_true, if_false, ihr, List.flatMap_cons,
      List.cons_append, List.nil_append]

theorem execCmds_symlink_flatMap (cmds : List String) :
    execCmds (cmds.flatMap fun cmd =>
      [Ev.run cmd, Ev.log ("Executed symlink command: " ++ cmd)]) = cmds := by
  induction cmds with
  | nil => rfl
  | cons cmd rest ih =>
    simp only [List.flatMap_cons, List.cons_append, List.nil_append,
      execCmds, List.filterMap_cons] at *
    rw [ih]

theorem logMsgs_symlink_flatMap (cmds : List String) :
    logMsgs (cmds.flatMap fun cmd =>
      [Ev.run cmd, Ev.log ("Executed symlink command: " ++ cmd)]) =
      cmds.map fun cmd => "Executed symlink command: " ++ cmd := by
  induction cmds with
  | nil => rfl
  | cons cmd rest ih =>
    simp only [List.flatMap_cons, List.cons_append, List.nil_append, List.map_cons,
      logMsgs, List.filterMap_cons] at *
    rw [ih]

/-- C7: in `createSymlinks`, when the commands succeed, the symlink commands
are executed strictly sequentially in list order, each execution is logged,
and the rehash command is invoked exactly once, strictly after all symlink
commands and never between them. -/
theorem claim_C7 (exits : String → Bool) (symlinkCommands : List String)
    (h1 : ∀ c ∈ symlinkCommands, exits c = false)
    (h2 : exits "pyenv rehash" = false)
    (h3 : "pyenv rehash" ∉ symlinkCommands) :
    createSymlinks exits symlinkCommands =
      .ok ((symlinkCommands.flatMap fun cmd =>
          [.run cmd, .log ("Executed symlink command: " ++ cmd)]) ++
        [.run "pyenv rehash"]) ∧
    execCmds ((symlinkCommands.flatMap fun cmd =>
        [Ev.run cmd, Ev.log ("Executed symlink command: " ++ cmd)]) ++
      [Ev.run "pyenv rehash"]) = symlinkCommands ++ ["pyenv rehash"] ∧
    logMsgs ((symlinkCommands.flatMap fun cmd =>
        [Ev.run cmd, Ev.log ("Executed symlink command: " ++ cmd)]) ++
      [Ev.run "pyenv rehash"]) =
      symlinkCommands.map (fun cmd => "Executed symlink command: " ++ cmd) ∧
    (execCmds ((symlinkCommands.flatMap fun cmd =>
        [Ev.run cmd, Ev.log ("Executed symlink command: " ++ cmd)]) ++
      [Ev.run "pyenv rehash"])).count "pyenv rehash" = 1 ∧
    ((symlinkCommands.flatMap fun cmd =>
        [Ev.run cmd, Ev.log ("Executed symlink command: " ++ cmd)]) ++
      [Ev.run "pyenv rehash"]).getLast? = some (.run "pyenv rehash") := by
  have hexec : execCmds ((symlinkCommands.flatMap fun cmd =>
      [Ev.run cmd, Ev.log ("Executed symlink command: " ++ cmd)]) ++
      [Ev.run "pyenv rehash"]) = symlinkCommands ++ ["pyenv rehash"] := by
    rw [execCmds_append, execCmds_symlink_flatMap]
    rfl
  have hlog : logMsgs ((symlinkCommands.flatMap fun cmd =>
      [Ev.run cmd, Ev.log ("Executed symlink command: " ++ cmd)]) ++
      [Ev.run "pyenv rehash"]) =
      symlinkCommands.map (fun cmd => "Executed symlink command: " ++ cmd) := by
    rw [logMsgs_append, logMsgs_symlink_flatMap]
    have h4 : logMsgs [Ev.run "pyenv rehash"] = [] := rfl
    rw [h4, List.append_nil]
  refine ⟨createSymlinks_ok exits symlinkCommands h1 h2, hexec, hlog, ?_, ?_⟩
  · rw [hexec, List.count_append]
    have hz : symlinkCommands.count "pyenv rehash" = 0 := List.count_eq_zero.mpr h3
    rw [hz]
    rfl
  · rw [List.getLast?_append]
    rfl

/-- C7 witness: two concrete symlink commands under an all-success exit
oracle. -/
theorem claim_C7_witness :
    createSymlinks (fun _ => false)
        ["ln -s -f /usr/local/Cellar/python@3.9/3.9.0 /Users/test/.pyenv/versions/3.9.0-brew",
          "ln -s -f /usr/local/Cellar/python@3.8/3.8.5 /Users/test/.pyenv/versions/3.8.5-brew"] =
      .ok ((["ln -s -f /usr/local/Cellar/python@3.9/3.9.0 /Users/test/.pyenv/versions/3.9.0-brew",
          "ln -s -f /usr/local/Cellar/python@3.8/3.8.5 /Users/test/.pyenv/versions/3.8.5-brew"].flatMap
            fun cmd => [.run cmd, .log ("Executed symlink command: " ++ cmd)]) ++
        [.run "pyenv rehash"]) :=
  (claim_C7 (fun _ => false)
    ["ln -s -f /usr/local/Cellar/python@3.9/3.9.0 /Users/test/.pyenv/versions/3.9.0-brew",
      "ln -s -f /usr/local/Cellar/python@3.8/3.8.5 /Users/test/.pyenv/versions/3.8.5-brew"]
    (fun _ _ => rfl) rfl (by decide)).1

theorem jsReplaceChars_no_occ (pat repl : List Char) (s : List Char)
    (h : ∀ i, pat.isPrefixOf (s.drop i) = false) : jsReplaceChars pat repl s = s := by
  induction s with
  | nil => rfl
  | cons c cs ih =>
    have h0 : pat.isPrefixOf (c :: cs) = false := by simpa using h 0
    simp only [jsReplaceChars, h0, Bool.false_eq_true, if_false]
    rw [ih fun i => by simpa [List.drop_succ_cons] using h (i + 1)]

theorem jsReplaceChars_first_occ (pat repl : List Char) (hp : pat ≠ []) :
    ∀ (s : List Char) (i : Nat), pat.isPrefixOf (s.drop i) = true →
      (∀ j, j < i → pat.isPrefixOf (s.drop j) = false) →
      jsReplaceChars pat repl s = s.take i ++ repl ++ s.drop (i + pat.length) := by
  intro s
  induction s with
  | nil =>
    intro i hi _
    cases pat with
    | nil => exact absurd rfl hp
    | cons a as => simp [List.isPrefixOf] at hi
  | cons c cs ih =>
    intro i hi hj
    cases i with
    | zero =>
      have h0 : pat.isPrefixOf (c :: cs) = true := by simpa using hi
      simp [jsReplaceChars, h0]
    | succ k =>
      have h0 : pat.isPrefixOf (c :: cs) = false := by simpa using hj 0 (Nat.succ_pos k)
      simp only [jsReplaceChars, h0, Bool.false_eq_true, if_false]
      have hi' : pat.isPrefixOf (cs.drop k) = true := by
        simpa [List.drop_succ_cons] using hi
      have hj' : ∀ j, j < k → pat.isPrefixOf (cs.drop j) = false := fun j hjk => by
        simpa [List.drop_succ_cons] using hj (j + 1) (Nat.succ_lt_succ hjk)
      rw [ih k hi' hj']
      simp [List.take_succ_cons, List.drop_succ_cons, Nat.succ_add]

/-- C9: in `installPyenvVersions`, the bare version passed to the install
command is the input with the first occurrence of the substring `python@`
removed, wherever that occurrence sits — for inputs beginning with `python@`
this is the suffix after the prefix, for an interior occurrence such as in
`my-python@3.9` the occurrence is still removed (yielding `my-3.9`), and
inputs without an occurrence pass through unchanged. -/
theorem claim_C9 :
    (∀ (pythonVersions : List String) (v : String), v ∈ pythonVersions →
      Ev.run ("pyenv install -s " ++ jsReplace v "python@" "") ∈
        installPyenvVersions pythonVersions) ∧
    (∀ v : String, ("python@".data).isPrefixOf v.data = true →
      jsReplace v "python@" "" = ⟨v.data.drop 7⟩) ∧
    jsReplace "my-python@3.9" "python@" "" = "my-3.9" ∧
    (∀ (v : String) (i : Nat), ("python@".data).isPrefixOf (v.data.drop i) = true →
      (∀ j, j < i → ("python@".data).isPrefixOf (v.data.drop j) = false) →
      jsReplace v "python@" "" = ⟨v.data.take i ++ v.data.drop (i + 7)⟩) ∧
    (∀ v : String, (∀ i, ("python@".data).isPrefixOf (v.data.drop i) = false) →
      jsReplace v "python@" "" = v) := by
  have hfirst : ∀ (v : String) (i : Nat),
      ("python@".data).isPrefixOf (v.data.drop i) = true →
      (∀ j, j < i → ("python@".data).isPrefixOf (v.data.drop j) = false) →
      jsReplace v "python@" "" = ⟨v.data.take i ++ v.data.drop (i + 7)⟩ := by
    intro v i hi hj
    show (⟨jsReplaceChars ("python@".data) [] v.data⟩ : String) = _
    rw [jsReplaceChars_first_occ ("python@".data) [] (by decide) v.data i hi hj]
    simp [show ("python@".data).length = 7 from rfl]
  refine ⟨?_, ?_, by decide, hfirst, ?_⟩
  · intro pythonVersions v hv
    refine List.mem_append.mpr (Or.inl ?_)
    exact List.mem_map.mpr ⟨v, hv, rfl⟩
  · intro v hv
    have := hfirst v 0 (by simpa using hv) (by omega)
    simpa using this
  · intro v hv
    show (⟨jsReplaceChars ("python@".data) [] v.data⟩ : String) = v
    rw [jsReplaceChars_no_occ ("python@".data) [] v.data hv]

/-- C9 witness: the characterization applied to a membership instance, a
leading occurrence, an interior occurrence and a no-occurrence input. -/
theorem claim_C9_witness :
    Ev.run ("pyenv install -s " ++ jsReplace "python@3.9" "python@" "") ∈
      installPyenvVersions ["python@3.9", "python@3.8"] ∧
    jsReplace "python@3.9" "python@" "" = ⟨("python@3.9" : String).data.drop 7⟩ ∧
    jsReplace "abc-python@9" "python@" "" =
      ⟨("abc-python@9" : String).data.take 4 ++ ("abc-python@9" : String).data.drop (4 + 7)⟩ ∧
    jsReplace "nope" "python@" "" = "nope" :=
  ⟨claim_C9.1 ["python@3.9", "python@3.8"] "python@3.9" (by decide),
    claim_C9.2.1 "python@3.9" (by decide),
    claim_C9.2.2.2.1 "abc-python@9" 4 (by decide) (by
      intro j hj
      interval_cases j <;> decide),
    claim_C9.2.2.2.2 "nope" (by
      intro i
      by_cases h : i < 4
      · interval_cases i <;> decide
      · have hd : ("nope" : String).data.drop i = [] :=
          List.drop_eq_nil_of_le (by simp only [show ("nope" : String).data.length = 4 from rfl]; omega)
        rw [hd]
        decide)⟩

theorem splitOnChar_ne_nil (sep : Char) (cs : List Char) : splitOnChar sep cs ≠ [] := by
  induction cs with
  | nil => simp [splitOnChar]
  | cons c cs ih =>
    rcases h : splitOnChar sep cs with _ | ⟨s, ss⟩
    · exact absurd h ih
    · simp only [splitOnChar, h]
      by_cases hc : c = sep <;> simp [hc]

theorem joinWith_splitOnChar (sep : Char) (cs : List Char) :
    joinWith sep (splitOnChar sep cs) = cs := by
  induction cs with
  | nil => rfl
  | cons c cs ih =>
    rcases h : splitOnChar sep cs with _ | ⟨s, ss⟩
    · exact absurd h (splitOnChar_ne_nil sep cs)
    · rw [h] at ih
      simp only [splitOnChar, h]
      by_cases hc : c = sep
      · subst hc
        rw [if_pos rfl, joinWith, if_neg (by simp), List.nil_append, ih]
      · rw [if_neg hc]
        cases ss with
        | nil =>
          rw [joinWith, if_pos rfl]
          rw [joinWith, if_pos rfl] at ih
          rw [ih]
        | cons t ts =>
          rw [joinWith, if_neg (by simp), List.cons_append]
          rw [joinWith, if_neg (by simp)] at ih
          rw [ih]

theorem splitOnChar_append (sep : Char) (a b : List Char) :
    splitOnChar sep (a ++ sep :: b) = splitOnChar sep a ++ splitOnChar sep b := by
  induction a with
  | nil =>
    rcases h : splitOnChar sep b with _ | ⟨s, ss⟩
    · exact absurd h (splitOnChar_ne_nil sep b)
    · simp [splitOnChar, h]
  | cons c a ih =>
    rcases ha : splitOnChar sep a with _ | ⟨s, ss⟩
    · exact absurd ha (splitOnChar_ne_nil sep a)
    · have ih' : splitOnChar sep (a ++ sep :: b) = s :: (ss ++ splitOnChar sep b) := by
        rw [ih, ha, List.cons_append]
      show splitOnChar sep (c :: (a ++ sep :: b)) = splitOnChar sep (c :: a) ++ _
      simp only [splitOnChar, ih', ha]
      by_cases hc : c = sep <;> simp [hc]

theorem splitOnChar_no_sep (sep : Char) (cs : List Char) (h : sep ∉ cs) :
    splitOnChar sep cs = [cs] := by
  induction cs with
  | nil => rfl
  | cons c cs ih =>
    have hc : c ≠ sep := fun hcc => h (hcc ▸ List.mem_cons_self c cs)
    have hrest := ih fun hm => h (List.mem_cons_of_mem c hm)
    simp [splitOnChar, hrest, fun hcc : c = sep => hc hcc]

theorem not_sep_of_mem_splitOnChar (sep : Char) (cs : List Char) (s : List Char)
    (hs : s ∈ splitOnChar sep cs) : sep ∉ s := by
  induction cs generalizing s with
  | nil =>
    simp only [splitOnChar, List.mem_singleton] at hs
    subst hs
    exact List.not_mem_nil sep
  | cons c cs ih =>
    rcases h : splitOnChar sep cs with _ | ⟨t, ts⟩
    · exact absurd h (splitOnChar_ne_nil sep cs)
    · simp only [splitOnChar, h] at hs
      by_cases hc : c = sep
      · rw [if_pos hc] at hs
        rcases List.mem_cons.mp hs with rfl | hs'
        · exact List.not_mem_nil sep
        · exact ih s (by rw [h]; exact hs')
      · rw [if_neg hc] at hs
        rcases List.mem_cons.mp hs with rfl | hs'
        · intro hmem
          rcases List.mem_cons.mp hmem with rfl | hmem'
          · exact hc rfl
          · exact ih t (by rw [h]; exact List.mem_cons_self t ts) hmem'
        · exact ih s (by rw [h]; exact List.mem_cons_of_mem t hs')

theorem plainSeg_spec (s : List Char) (h : plainSeg s = true) :
    s ≠ [] ∧ s ≠ ['.'] ∧ s ≠ ['.', '.'] := by
  by_cases h1 : s = []
  · subst h1; exact absurd h (by decide)
  · by_cases h2 : s = ['.']
    · subst h2; exact absurd h (by decide)
    · by_cases h3 : s = ['.', '.']
      · subst h3; exact absurd h (by decide)
      · exact ⟨h1, h2, h3⟩

theorem normSegs_all_plain (ar : Bool) (segs : List (List Char))
    (h : ∀ s ∈ segs, plainSeg s = true) :
    ∀ acc, normSegs ar acc segs = acc.reverse ++ segs := by
  induction segs with
  | nil => intro acc; simp [normSegs]
  | cons seg rest ih =>
    intro acc
    obtain ⟨he, h2, h3⟩ := plainSeg_spec seg (h seg (List.mem_cons_self seg rest))
    rw [normSegs.eq_def]
    simp only []
    rw [if_neg (not_or.mpr ⟨he, h2⟩), if_neg h3,
      ih (fun s hs => h s (List.mem_cons_of_mem seg hs)) (seg :: acc)]
    simp

theorem joinWith_append_of_ne_nil (sep : Char) :
    ∀ (l m : List (List Char)), l ≠ [] → m ≠ [] →
      joinWith sep (l ++ m) = joinWith sep l ++ sep :: joinWith sep m := by
  intro l
  induction l with
  | nil => intro m h _; exact absurd rfl h
  | cons s l ih =>
    intro m _ hm
    cases l with
    | nil =>
      cases m with
      | nil => exact absurd rfl hm
      | cons t ts =>
        rw [List.cons_append, List.nil_append, joinWith, if_neg (by simp),
          show joinWith sep [s] = s from by rw [joinWith, if_pos rfl]]
    | cons t ts =>
      have hih := ih m (by simp) hm
      rw [List.cons_append, joinWith, if_neg (by simp [List.append_eq_nil]), hih,
        show joinWith sep (s :: t :: ts) = s ++ sep :: joinWith sep (t :: ts) from by
          rw [joinWith, if_neg (by simp)]]
      simp [List.append_assoc]

theorem joinWith_ne_nil (sep : Char) (l : List (List Char)) (hl : l ≠ [])
    (h : ∀ s ∈ l, plainSeg s = true) : joinWith sep l ≠ [] := by
  cases l with
  | nil => exact absurd rfl hl
  | cons s l =>
    cases l with
    | nil =>
      rw [joinWith, if_pos rfl]
      exact (plainSeg_spec s (h s (List.mem_cons_self s []))).1
    | cons t ts =>
      rw [joinWith, if_neg (by simp)]
      simp

theorem getLast?_append_right (l m : List Char) (hm : m ≠ []) :
    (l ++ m).getLast? = m.getLast? := by
  rw [List.getLast?_append]
  rcases h : m.getLast? with _ | x
  · exact absurd (List.getLast?_eq_none_iff.mp h) hm
  · rfl

theorem normSegs_cons_empty (ar : Bool) (acc : List (List Char)) (rest : List (List Char)) :
    normSegs ar acc ([] :: rest) = normSegs ar acc rest := by
  rw [normSegs.eq_def]
  simp only [true_or, if_true]

theorem posixNormalizeChars_eval (cs : List Char) (hne : cs ≠ [])
    (hlast : ¬cs.getLast? = some '/')
    (hcore : joinWith '/' (normSegs (!decide (cs.head? = some '/')) [] (splitOnChar '/' cs)) ≠ []) :
    posixNormalizeChars cs =
      (if cs.head? = some '/' then ['/'] else []) ++
        joinWith '/' (normSegs (!decide (cs.head? = some '/')) [] (splitOnChar '/' cs)) := by
  unfold posixNormalizeChars
  rw [if_neg hne, if_neg hcore, if_neg hlast, List.append_nil]

theorem posixJoinChars_normal (rc : List Char) (hroot : normalRoot ⟨rc⟩ = true)
    (n : List Char) (hn : plainSeg n = true) (hns : '/' ∉ n) :
    posixJoinChars [rc, ("versions" : String).data, n] =
      rc ++ '/' :: (("versions" : String).data ++ '/' :: n) := by
  set v : List Char := ("versions" : String).data with hvdef
  have hnne : n ≠ [] := (plainSeg_spec n hn).1
  have hrcne : rc ≠ [] := by
    intro hrc
    subst hrc
    exact absurd hroot (by decide)
  have hv : v ≠ [] := by rw [hvdef]; decide
  have hvplain : plainSeg v = true := by rw [hvdef]; decide
  have hvns : '/' ∉ v := by rw [hvdef]; decide
  have hkept : ([rc, v, n].filter fun p => p ≠ []) = [rc, v, n] := by
    simp [List.filter_cons, hrcne, hnne, hv]
  have hJ : joinWith '/' [rc, v, n] = rc ++ '/' :: (v ++ '/' :: n) := by
    rw [joinWith, if_neg (by simp), joinWith, if_neg (by simp),
      show joinWith '/' [n] = n from by rw [joinWith, if_pos rfl]]
  have hjvn : joinWith '/' [v, n] = v ++ '/' :: n := by
    rw [joinWith, if_neg (by simp), show joinWith '/' [n] = n from by rw [joinWith, if_pos rfl]]
  unfold posixJoinChars
  rw [hkept, if_neg (by simp), hJ]
  obtain ⟨c0, rc', rfl⟩ : ∃ c0 rc', rc = c0 :: rc' := by
    cases rc with
    | nil => exact absurd rfl hrcne
    | cons a b => exact ⟨a, b, rfl⟩
  set J : List Char := (c0 :: rc') ++ '/' :: (v ++ '/' :: n) with hJdef
  have hJhead : J.head? = some c0 := by rw [hJdef]; rfl
  have hJne : J ≠ [] := by rw [hJdef]; simp
  have hlastn : ∃ a, n.getLast? = some a ∧ a ≠ '/' := by
    rcases hnl : n.getLast? with _ | a
    · exact absurd (List.getLast?_eq_none_iff.mp hnl) hnne
    · exact ⟨a, rfl, fun ha => hns (ha ▸ List.mem_of_getLast?_eq_some hnl)⟩
  have hJlast : ¬J.getLast? = some '/' := by
    rw [hJdef, getLast?_append_right _ _ (by simp),
      show ('/' :: (v ++ '/' :: n)) = ('/' :: v ++ ['/']) ++ n from by simp,
      getLast?_append_right _ _ hnne]
    obtain ⟨a, ha, hane⟩ := hlastn
    rw [ha]
    simp [hane]
  have hsplitJ : splitOnChar '/' J = splitOnChar '/' (c0 :: rc') ++ [v, n] := by
    rw [hJdef, splitOnChar_append, splitOnChar_append,
      splitOnChar_no_sep '/' v hvns, splitOnChar_no_sep '/' n hns]
    rfl
  have h1 := joinWith_splitOnChar '/' (c0 :: rc')
  unfold normalRoot at hroot
  rcases hs : splitOnChar '/' (c0 :: rc') with _ | ⟨s0, rest⟩
  · exact absurd hs (splitOnChar_ne_nil _ _)
  rw [hs] at hroot h1
  cases s0 with
  | nil =>
    have hroot' : (!rest.isEmpty && rest.all plainSeg) = true := hroot
    obtain ⟨hne', hall'⟩ := Bool.and_eq_true_iff.mp hroot'
    have hrestne : rest ≠ [] := List.isEmpty_eq_false.mp (by
      cases hb : rest.isEmpty
      · rfl
      · rw [hb] at hne'; exact absurd hne' (by decide))
    have hall : ∀ s ∈ rest, plainSeg s = true := List.all_eq_true.mp hall'
    rw [joinWith, if_neg hrestne, List.nil_append, List.cons.injEq] at h1
    have hc0 : c0 = '/' := h1.1.symm
    have hrc' : joinWith '/' rest = rc' := h1.2
    have hJhead' : J.head? = some '/' := by rw [hJhead, hc0]
    have hplains : ∀ s ∈ rest ++ [v, n], plainSeg s = true := by
      intro s hsm
      rcases List.mem_append.mp hsm with hm | hm
      · exact hall s hm
      · rcases List.mem_cons.mp hm with rfl | hm2
        · exact hvplain
        · rcases List.mem_cons.mp hm2 with rfl | hm3
          · exact hn
          · exact absurd hm3 (List.not_mem_nil _)
    have hsegs : normSegs (!decide (J.head? = some '/')) [] (splitOnChar '/' J) =
        rest ++ [v, n] := by
      rw [hJhead', show (!decide ((some '/' : Option Char) = some '/')) = false from rfl,
        hsplitJ, hs, List.cons_append, normSegs_cons_empty]
      simpa using normSegs_all_plain false (rest ++ [v, n]) hplains []
    have hcore : joinWith '/' (normSegs (!decide (J.head? = some '/')) []
        (splitOnChar '/' J)) ≠ [] := by
      rw [hsegs]
      exact joinWith_ne_nil '/' _ (by simp) hplains
    rw [posixNormalizeChars_eval J hJne hJlast hcore, hsegs, if_pos hJhead',
      joinWith_append_of_ne_nil '/' rest [v, n] hrestne (by simp), hjvn, hJdef, hc0, ← hrc']
    simp
  | cons d s0' =>
    have hroot' : ((d :: s0') :: rest).all plainSeg = true := hroot
    have hall : ∀ s ∈ (d :: s0') :: rest, plainSeg s = true := List.all_eq_true.mp hroot'
    have hdne : d ≠ '/' := by
      have hm := not_sep_of_mem_splitOnChar '/' (c0 :: rc') (d :: s0')
        (by rw [hs]; exact List.mem_cons_self _ _)
      intro hd
      exact hm (hd ▸ List.mem_cons_self d s0')
    have hc0 : c0 = d := by
      cases rest with
      | nil =>
        rw [joinWith, if_pos rfl] at h1
        injection h1 with hx hy
        exact hx.symm
      | cons r rs =>
        rw [joinWith, if_neg (by simp), List.cons_append] at h1
        injection h1 with hx hy
        exact hx.symm
    have hJheadne : ¬J.head? = some '/' := by
      rw [hJhead, hc0]
      simp [hdne]
    have hdec : (!decide (J.head? = some '/')) = true := by
      rw [hJhead, hc0]
      simp [hdne]
    have hplains : ∀ s ∈ ((d :: s0') :: rest) ++ [v, n], plainSeg s = true := by
      intro s hsm
      rcases List.mem_append.mp hsm with hm | hm
      · exact hall s hm
      · rcases List.mem_cons.mp hm with rfl | hm2
        · exact hvplain
        · rcases List.mem_cons.mp hm2 with rfl | hm3
          · exact hn
          · exact absurd hm3 (List.not_mem_nil _)
    have hsegs : normSegs (!decide (J.head? = some '/')) [] (splitOnChar '/' J) =
        ((d :: s0') :: rest) ++ [v, n] := by
      rw [hdec, hsplitJ, hs]
      simpa using normSegs_all_plain true (((d :: s0') :: rest) ++ [v, n]) hplains []
    have hcore : joinWith '/' (normSegs (!decide (J.head? = some '/')) []
        (splitOnChar '/' J)) ≠ [] := by
      rw [hsegs]
      exact joinWith_ne_nil '/' _ (by simp) hplains
    rw [posixNormalizeChars_eval J hJne hJlast hcore, hsegs, if_neg hJheadne, List.nil_append,
      joinWith_append_of_ne_nil '/' ((d :: s0') :: rest) [v, n] (by simp) (by simp), hjvn, h1,
      hJdef]

theorem no_slash_posixBasename (p : String) : '/' ∉ (posixBasename p).data := by
  intro hmem
  have hmem' : '/' ∈ ((p.data.reverse.dropWhile fun c => c = '/').takeWhile fun c => c ≠ '/') :=
    List.mem_reverse.mp hmem
  have := List.mem_takeWhile_imp hmem'
  simp at this

theorem plainSeg_brewname (p : String) :
    plainSeg ((posixBasename p).data ++ ("-brew" : String).data) = true := by
  have hlen : ((posixBasename p).data ++ ("-brew" : String).data).length =
      (posixBasename p).data.length + 5 := by
    rw [List.length_append]
    rfl
  have h1 : (posixBasename p).data ++ ("-brew" : String).data ≠ [] := by
    intro hcontra
    obtain ⟨-, h2⟩ := List.append_eq_nil.mp hcontra
    exact absurd h2 (by decide)
  have h2 : (posixBasename p).data ++ ("-brew" : String).data ≠ ['.'] := by
    intro hcontra
    have := congrArg List.length hcontra
    rw [hlen] at this
    simp at this
  have h3 : (posixBasename p).data ++ ("-brew" : String).data ≠ ['.', '.'] := by
    intro hcontra
    have := congrArg List.length hcontra
    rw [hlen] at this
    simp at this
  simp [plainSeg, List.isEmpty_eq_false, h1, h2, h3]

/-- C5 (amended): `generateSymlinkCommands` emits one command per input path
in input order with no deduplication (empty input yields empty output), and
for every root in the normalization-free form (non-empty, no empty or `.` or
`..` segments, no trailing separator, optionally absolute) the command for
`versionPath` is exactly
`ln -s -f <versionPath> <pyenvRoot>/versions/<basename(versionPath)>-brew`. -/
theorem claim_C5 (pythonDirs : List String) (pyenvRoot : String)
    (h : normalRoot pyenvRoot = true) :
    generateSymlinkCommands pythonDirs pyenvRoot =
      pythonDirs.map (fun versionPath =>
        "ln -s -f " ++ versionPath ++ " " ++ pyenvRoot ++ "/versions/" ++
          (posixBasename versionPath ++ "-brew")) ∧
    (generateSymlinkCommands pythonDirs pyenvRoot).length = pythonDirs.length ∧
    generateSymlinkCommands [] pyenvRoot = [] := by
  have hjoin : ∀ p : String,
      posixJoin [pyenvRoot, "versions", posixBasename p ++ "-brew"] =
        pyenvRoot ++ "/versions/" ++ (posixBasename p ++ "-brew") := by
    intro p
    have hns : '/' ∉ (posixBasename p).data ++ ("-brew" : String).data := by
      intro hmem
      rcases List.mem_append.mp hmem with hm | hm
      · exact no_slash_posixBasename p hm
      · exact absurd hm (by decide)
    have hchars := posixJoinChars_normal pyenvRoot.data h
      ((posixBasename p).data ++ ("-brew" : String).data) (plainSeg_brewname p) hns
    have hdata : posixJoinChars [pyenvRoot.data, ("versions" : String).data,
        (posixBasename p).data ++ ("-brew" : String).data] =
        (pyenvRoot ++ "/versions/" ++ (posixBasename p ++ "-brew")).data := by
      rw [hchars, String.data_append, String.data_append, String.data_append,
        show ∀ m : List Char,
          '/' :: (("versions" : String).data ++ '/' :: m) = ("/versions/" : String).data ++ m
          from fun m => rfl]
      simp [List.append_assoc]
    exact congrArg String.mk hdata
  refine ⟨?_, by simp [generateSymlinkCommands], rfl⟩
  unfold generateSymlinkCommands
  refine List.map_congr_left ?_
  intro p _
  rw [hjoin p]
  simp [String.append_assoc]

/-- C5 counterexample: for the root path `.`, POSIX path joining normalizes
the destination, so the emitted command is not the literal concatenation the
claim prescribes. -/
theorem claim_C5_counterexample :
    generateSymlinkCommands ["/usr/local/Cellar/python@3.9/3.9.0"] "." ≠
      ["ln -s -f /usr/local/Cellar/python@3.9/3.9.0 ./versions/3.9.0-brew"] := by
  decide

/-- C5 witness: the amended claim applied to the spec's concrete example. -/
theorem claim_C5_witness :
    generateSymlinkCommands
        ["/usr/local/Cellar/python@3.9/3.9.0", "/usr/local/Cellar/python@3.8/3.8.5"]
        "/Users/test/.pyenv" =
      ["/usr/local/Cellar/python@3.9/3.9.0", "/usr/local/Cellar/python@3.8/3.8.5"].map
        (fun versionPath =>
          "ln -s -f " ++ versionPath ++ " " ++ "/Users/test/.pyenv" ++ "/versions/" ++
            (posixBasename versionPath ++ "-brew")) :=
  (claim_C5 ["/usr/local/Cellar/python@3.9/3.9.0", "/usr/local/Cellar/python@3.8/3.8.5"]
    "/Users/test/.pyenv" (by decide)).1

end BrewPyenv
